import Mathlib

/-!
Verification of the SQL Server → MySQL converter (`sqlConverter.js`, `index.js`).

The converter applies a fixed ordered list of eight regex substitution rules to
a text, either in one whole-buffer pass (`convertToMySQL`) or line by line
(`convertLargeFileStreaming`).  Each regex of the source is shallowly embedded
as a deterministic `Matcher` over `List Char`; a generic fuel-indexed scanner
`scanGo` reproduces the JavaScript global-`replace` scan: at each position it
tries the pattern, on success emits the replacement and resumes after the
matched text, on failure copies one character and advances.  None of the eight
patterns needs backtracking (each quantified class is disjoint from the
character that must follow it), so maximal-munch scanning is exact.
-/

namespace SQLMySQL

/-- JS word character class `\w` = `[A-Za-z0-9_]`. -/
def wordChar (c : Char) : Bool := c.isAlphanum || c = '_'

/-- ASCII whitespace recognized by `\s` (space, tab, LF, VT, FF, CR). -/
def spaceChar (c : Char) : Bool :=
  c = ' ' || c = '\t' || c = '\n' || c = '\x0b' || c = '\x0c' || c = '\r'

/-- Outcome of a successful pattern match at the current position:
the replacement text, the number of characters consumed beyond the first
(so a match always consumes `extra + 1 ≥ 1` characters), and the last
consumed character (the character preceding the scan resume point, used
for `\b` word-boundary tests of the next match attempt). -/
structure MStep where
  rep : List Char
  extra : Nat
  last : Char
deriving DecidableEq

/-- A matcher receives the character just before the current position
(`none` at the start of the text) and the remaining text. -/
def Matcher : Type := Option Char → List Char → Option MStep

/-- A `\b` word boundary holds before a word character when the preceding
character is absent or not a word character. -/
def boundary : Option Char → Bool
  | none => true
  | some c => !wordChar c

/-- the JS `String.replace` global scan: try the matcher at each position,
replacing on success and advancing one character on failure.  `fuel` bounds
the recursion; with `fuel = s.length` it never runs out because every step
consumes at least one character. -/
def scanGo (m : Matcher) : Nat → Option Char → List Char → List Char
  | 0, _, s => s
  | _ + 1, _, [] => []
  | fuel + 1, prev, c :: cs =>
    match m prev (c :: cs) with
    | some st => st.rep ++ scanGo m fuel (some st.last) (cs.drop st.extra)
    | none => c :: scanGo m fuel (some c) cs

/-- apply one rule to a whole text, as `text.replace(pattern, replacement)`. -/
def scanRule (m : Matcher) (s : List Char) : List Char := scanGo m s.length none s

/-- the same scan, counting matches instead of rewriting:
`text.match(pattern).length` for a global pattern (0 when `null`). -/
def countGo (m : Matcher) : Nat → Option Char → List Char → Nat
  | 0, _, _ => 0
  | _ + 1, _, [] => 0
  | fuel + 1, prev, c :: cs =>
    match m prev (c :: cs) with
    | some st => countGo m fuel (some st.last) (cs.drop st.extra) + 1
    | none => countGo m fuel (some c) cs

def countMatches (m : Matcher) (s : List Char) : Nat := countGo m s.length none s

/-- does `lit` occur at the start of `s`? -/
def leadsWith : List Char → List Char → Bool
  | [], _ => true
  | _ :: _, [] => false
  | a :: as, b :: bs => if a = b then leadsWith as bs else false

/-- matcher of a literal pattern with a literal replacement
(`GETDATE()` → `NOW()` and the other function-name rules). -/
def matchLit (lit rep : List Char) : Matcher := fun _ s =>
  if leadsWith lit s then
    match lit.getLast? with
    | some l => some { rep := rep, extra := lit.length - 1, last := l }
    | none => none
  else none

/-- matcher of rule 1, `/\[dbo\]\.\[(\w+)\]/g` with replacement `$1`:
the literal `[dbo].[`, a nonempty greedy run of word characters, `]`. -/
def matchDbo : Matcher := fun _ s =>
  if leadsWith "[dbo].[".toList s then
    let t := s.drop 7
    let w := t.takeWhile wordChar
    match t.dropWhile wordChar with
    | ']' :: _ => if w = [] then none else some { rep := w, extra := 7 + w.length, last := ']' }
    | _ => none
  else none

/-- matcher of rule 2, `/\[([^\]]+)\]/g` with replacement `$1`:
`[`, a nonempty greedy run of non-`]` characters, `]`. -/
def matchBr : Matcher := fun _ s =>
  match s with
  | c :: t =>
    if c = '[' then
      let w := t.takeWhile (fun d => d ≠ ']')
      match t.dropWhile (fun d => d ≠ ']') with
      | ']' :: _ => if w = [] then none else some { rep := w, extra := 1 + w.length, last := ']' }
      | _ => none
    else none
  | [] => none

/-- matcher of rule 6, `/\bLEN\(/g` → `LENGTH(`. -/
def matchLen : Matcher := fun prev s =>
  if boundary prev && leadsWith "LEN(".toList s then
    some { rep := "LENGTH(".toList, extra := 3, last := '(' }
  else none

/-- matcher of rule 7, `/\bISNULL\(/g` → `IFNULL(`. -/
def matchIsnull : Matcher := fun prev s =>
  if boundary prev && leadsWith "ISNULL(".toList s then
    some { rep := "IFNULL(".toList, extra := 6, last := '(' }
  else none

/-- matcher of rule 8, `/\bTOP\s+(\d+)\b/gi` → `LIMIT $1`: a word boundary,
`TOP` in any case, nonempty whitespace, nonempty digits, a trailing word
boundary.  The whitespace and digit runs are maximal; since `\s`, `\d` and the
respective follower classes are disjoint, no backtracking can occur. -/
def matchTop : Matcher := fun prev s =>
  match s with
  | a :: t0 =>
    if boundary prev && (a = 'T' || a = 't') then
      match t0 with
      | b :: c :: t =>
        if (b = 'O' || b = 'o') && (c = 'P' || c = 'p') then
          let sp := t.takeWhile spaceChar
          let t1 := t.dropWhile spaceChar
          let d := t1.takeWhile Char.isDigit
          let t2 := t1.dropWhile Char.isDigit
          if sp = [] || d = [] then none
          else if boundary t2.head? then
            some { rep := "LIMIT ".toList ++ d, extra := 2 + sp.length + d.length,
                   last := d.getLastD '0' }
          else none
        else none
      | _ => none
    else none
  | [] => none

/-- one conversion-table entry: the printed form of the pattern
(`conv.pattern.toString()`) and its matcher. -/
structure Rule where
  pattern : String
  matcher : Matcher

/-- the ordered conversion table built in `SQLConverter`'s constructor. -/
def conversions : List Rule :=
  [ { pattern := "/\\[dbo\\]\\.\\[(\\w+)\\]/g", matcher := matchDbo }
  , { pattern := "/\\[([^\\]]+)\\]/g", matcher := matchBr }
  , { pattern := "/GETDATE\\(\\)/g", matcher := matchLit "GETDATE()".toList "NOW()".toList }
  , { pattern := "/GETUTCDATE\\(\\)/g",
      matcher := matchLit "GETUTCDATE()".toList "UTC_TIMESTAMP()".toList }
  , { pattern := "/NEWID\\(\\)/g", matcher := matchLit "NEWID()".toList "UUID()".toList }
  , { pattern := "/\\bLEN\\(/g", matcher := matchLen }
  , { pattern := "/\\bISNULL\\(/g", matcher := matchIsnull }
  , { pattern := "/\\bTOP\\s+(\\d+)\\b/gi", matcher := matchTop } ]

/-- the `forEach` loop of `convertToMySQL`: every rule applied in declared
order, each as a global substitution over the current text. -/
def applyAll (s : List Char) : List Char :=
  conversions.foldl (fun acc r => scanRule r.matcher acc) s

/-- the provenance header, parametrized by the generation timestamp. -/
def mkHeader (ts : List Char) : List Char :=
  "-- Converted from SQL Server to MySQL\n-- Generated on: ".toList ++ ts ++
    "\n-- Use with caution and verify before executing\n\n".toList

/-- `convertToMySQL`: header followed by the fully converted text. -/
def convertToMySQL (ts s : List Char) : List Char := mkHeader ts ++ applyAll s

/-- JS `content.split('\n')`, used by `getConversionStats` for line counts. -/
def splitNl : List Char → List (List Char)
  | [] => [[]]
  | c :: rest =>
    if c = '\n' then [] :: splitNl rest
    else
      match splitNl rest with
      | [] => [[c]]
      | l :: ls => (c :: l) :: ls

/-- normalize the line terminators `readline` recognizes: `\r\n` and a lone
`\r` both become `\n`. -/
def normTerm : List Char → List Char
  | [] => []
  | c :: rest =>
    if c = '\r' then
      match rest with
      | [] => ['\n']
      | d :: rest2 => if d = '\n' then '\n' :: normTerm rest2 else '\n' :: normTerm (d :: rest2)
    else c :: normTerm rest

/-- lines delivered by `readline` for a whole input: `\n`, `\r\n` and lone
`\r` all end a line, a trailing terminator produces no extra empty line, and
empty input produces no lines. -/
def splitLines : List Char → List (List Char)
  | [] => []
  | c :: cs =>
    let parts := splitNl (normTerm (c :: cs))
    if parts.getLast? = some [] then parts.dropLast else parts

/-- the body of the per-line handler of `convertLargeFileStreaming`: apply
every rule in order to the line, tracking whether any rule changed it. -/
def convertLineFlag (l : List Char) : List Char × Bool :=
  conversions.foldl
    (fun p r =>
      let next := scanRule r.matcher p.1
      (next, p.2 || decide (¬ next = p.1)))
    (l, false)

/-- per-line staged match count: for each rule in order, the number of matches
of its pattern in the text as it stands when that rule runs. -/
def stagedCount (l : List Char) : Nat :=
  (conversions.foldl
    (fun p r => (scanRule r.matcher p.1, p.2 + countMatches r.matcher p.1))
    (l, 0)).2

/-- the streaming accumulator: lines processed, lines converted, output body. -/
def streamFold (st : Nat × Nat × List Char) (l : List Char) : Nat × Nat × List Char :=
  let cf := convertLineFlag l
  (st.1 + 1, st.2.1 + (if cf.2 then 1 else 0), st.2.2 ++ cf.1 ++ ['\n'])

/-- the data portion written after the header in streaming mode. -/
def streamBody (s : List Char) : List Char :=
  ((splitLines s).foldl streamFold (0, 0, [])).2.2

/-- the summary resolved by `convertLargeFileStreaming` on `close`. -/
structure StreamSummary where
  success : Bool
  linesProcessed : Nat
  linesChanged : Nat
deriving DecidableEq

/-- `convertLargeFileStreaming`: header written first, then each converted
line plus a single `\n`; resolves with the line counters on end of input. -/
def convertLargeFileStreaming (ts s : List Char) : List Char × StreamSummary :=
  let r := (splitLines s).foldl streamFold (0, 0, [])
  (mkHeader ts ++ r.2.2, { success := true, linesProcessed := r.1, linesChanged := r.2.1 })

/-- result object of `convertAndSave`. -/
structure SaveResult where
  success : Bool
deriving DecidableEq

/-- the 50 MB size threshold of `convertAndSave` (`fileSizeInMB > 50`). -/
def thresholdBytes : Nat := 50 * 1024 * 1024

/-- `convertAndSave`, over an abstract source: `none` models an unreadable or
missing input file (every thrown error is caught and reported as failure),
`some c` a readable file with content `c`.  The second component is the
content written to the output file, when any. -/
def convertAndSave (ts : List Char) (input : Option (List Char)) :
    SaveResult × Option (List Char) :=
  match input with
  | none => ({ success := false }, none)
  | some c =>
    if thresholdBytes < c.length then
      ({ success := true }, some (convertLargeFileStreaming ts c).1)
    else
      ({ success := true }, some (convertToMySQL ts c))

/-- one step of the batch loop of `index.js`: success and error counters and
the list of written output files. -/
def batchFold (ts : List Char) (st : Nat × Nat × List (String × List Char))
    (f : String × Option (List Char)) : Nat × Nat × List (String × List Char) :=
  match convertAndSave ts f.2 with
  | ({ success := true }, some out) => (st.1 + 1, st.2.1, st.2.2 ++ [(f.1 ++ "_mysql.sql", out)])
  | _ => (st.1, st.2.1 + 1, st.2.2)

/-- the `batch` command's loop over the directory's files: each file is
converted independently; a failure increments the error counter and the loop
continues with the next file. -/
def batchRun (ts : List Char) (files : List (String × Option (List Char))) :
    Nat × Nat × List (String × List Char) :=
  files.foldl (batchFold ts) (0, 0, [])

/-- one entry of `conversionsApplied` in the statistics object. -/
structure RuleCount where
  pattern : String
  count : Nat
deriving DecidableEq

/-- the statistics object of `getConversionStats`. -/
structure ConversionStats where
  originalLines : Nat
  convertedLines : Nat
  conversionsApplied : List RuleCount
deriving DecidableEq

/-- `getConversionStats`: line counts of both texts, and for each rule in
order the number of matches of its pattern in the original text, pushed only
when at least one match exists. -/
def getConversionStats (o c : List Char) : ConversionStats :=
  { originalLines := (splitNl o).length
  , convertedLines := (splitNl c).length
  , conversionsApplied := conversions.foldl
      (fun acc r =>
        let n := countMatches r.matcher o
        if 0 < n then acc ++ [{ pattern := r.pattern, count := n }] else acc)
      [] }

/-- drop trailing line terminators, for comparisons that ignore
trailing-newline normalization. -/
def rstripNl (s : List Char) : List Char :=
  (s.reverse.dropWhile (fun c => c = '\n' || c = '\r')).reverse

end SQLMySQL

namespace SQLMySQL

/-! ### Generic scanner lemmas -/

theorem scanGo_zero (m : Matcher) (p : Option Char) (s : List Char) :
    scanGo m 0 p s = s := rfl

theorem scanGo_nil (m : Matcher) (fuel : Nat) (p : Option Char) :
    scanGo m fuel p [] = [] := by
  cases fuel <;> rfl

theorem scanGo_cons_none {m : Matcher} {p : Option Char} {c : Char} {cs : List Char}
    (fuel : Nat) (h : m p (c :: cs) = none) :
    scanGo m (fuel + 1) p (c :: cs) = c :: scanGo m fuel (some c) cs := by
  simp [scanGo, h]

theorem scanGo_cons_some {m : Matcher} {p : Option Char} {c : Char} {cs : List Char}
    {st : MStep} (fuel : Nat) (h : m p (c :: cs) = some st) :
    scanGo m (fuel + 1) p (c :: cs) = st.rep ++ scanGo m fuel (some st.last) (cs.drop st.extra) := by
  simp [scanGo, h]

theorem countGo_zero (m : Matcher) (p : Option Char) (s : List Char) :
    countGo m 0 p s = 0 := rfl

theorem countGo_nil (m : Matcher) (fuel : Nat) (p : Option Char) :
    countGo m fuel p [] = 0 := by
  cases fuel <;> rfl

theorem countGo_cons_none {m : Matcher} {p : Option Char} {c : Char} {cs : List Char}
    (fuel : Nat) (h : m p (c :: cs) = none) :
    countGo m (fuel + 1) p (c :: cs) = countGo m fuel (some c) cs := by
  simp [countGo, h]

theorem countGo_cons_some {m : Matcher} {p : Option Char} {c : Char} {cs : List Char}
    {st : MStep} (fuel : Nat) (h : m p (c :: cs) = some st) :
    countGo m (fuel + 1) p (c :: cs) = countGo m fuel (some st.last) (cs.drop st.extra) + 1 := by
  simp [countGo, h]

/-- if the matcher fails at every character of `s`, the scan is the identity. -/
theorem scanGo_id_of_none {m : Matcher} {s : List Char}
    (hm : ∀ (p : Option Char) (c : Char) (cs : List Char), c ∈ s → m p (c :: cs) = none) :
    ∀ (fuel : Nat) (p : Option Char), scanGo m fuel p s = s := by
  induction s with
  | nil => intro fuel p; exact scanGo_nil m fuel p
  | cons c cs ih =>
    intro fuel p
    cases fuel with
    | zero => rfl
    | succ fuel =>
      rw [scanGo_cons_none fuel (hm p c cs (by simp))]
      rw [ih (fun p' c' cs' hc' => hm p' c' cs' (by simp [hc']))]

/-- a scan that found no match changed nothing. -/
theorem scanGo_id_of_count_zero {m : Matcher} :
    ∀ (fuel : Nat) (p : Option Char) (s : List Char),
      countGo m fuel p s = 0 → scanGo m fuel p s = s := by
  intro fuel
  induction fuel with
  | zero => intro p s _; rfl
  | succ fuel ih =>
    intro p s h
    cases s with
    | nil => exact scanGo_nil m _ p
    | cons c cs =>
      cases hm : m p (c :: cs) with
      | some st => rw [countGo_cons_some fuel hm] at h; omega
      | none =>
        rw [countGo_cons_none fuel hm] at h
        rw [scanGo_cons_none fuel hm, ih _ _ h]

theorem scanRule_id_of_count {m : Matcher} {s : List Char}
    (h : countMatches m s = 0) : scanRule m s = s :=
  scanGo_id_of_count_zero s.length none s h

theorem scanRule_id_of_none {m : Matcher} {s : List Char}
    (hm : ∀ (p : Option Char) (c : Char) (cs : List Char), c ∈ s → m p (c :: cs) = none) :
    scanRule m s = s :=
  scanGo_id_of_none hm s.length none

/-- a fold whose every step fixes the accumulator fixes it overall. -/
theorem foldl_fixed {α β : Type} {f : β → α → β} {b : β} :
    ∀ {l : List α}, (∀ a ∈ l, f b a = b) → l.foldl f b = b := by
  intro l
  induction l with
  | nil => intro _; rfl
  | cons a l ih =>
    intro h
    rw [List.foldl_cons, h a (by simp)]
    exact ih (fun x hx => h x (by simp [hx]))

/-! ### takeWhile / dropWhile helpers -/

theorem takeWhile_eq_nil_of {p : Char → Bool} {l : List Char}
    (h : ∀ c ∈ l, p c = false) : l.takeWhile p = [] := by
  cases l with
  | nil => rfl
  | cons c cs => simp [List.takeWhile, h c (by simp)]

theorem dropWhile_eq_self_of {p : Char → Bool} {l : List Char}
    (h : ∀ c ∈ l, p c = false) : l.dropWhile p = l := by
  cases l with
  | nil => rfl
  | cons c cs => simp [List.dropWhile, h c (by simp)]

theorem takeWhile_eq_self_of {p : Char → Bool} {l : List Char}
    (h : ∀ c ∈ l, p c = true) : l.takeWhile p = l := by
  induction l with
  | nil => rfl
  | cons c cs ih =>
    have hrec := ih (fun x hx => h x (by simp [hx]))
    simp [List.takeWhile, h c (by simp), hrec]

theorem dropWhile_eq_nil_of {p : Char → Bool} {l : List Char}
    (h : ∀ c ∈ l, p c = true) : l.dropWhile p = [] := by
  induction l with
  | nil => rfl
  | cons c cs ih =>
    have hrec := ih (fun x hx => h x (by simp [hx]))
    simp [List.dropWhile, h c (by simp), hrec]

theorem takeWhile_append_of {p : Char → Bool} {l r : List Char} {x : Char}
    (h : ∀ c ∈ l, p c = true) (hx : p x = false) :
    (l ++ x :: r).takeWhile p = l := by
  induction l with
  | nil => simp [List.takeWhile, hx]
  | cons c cs ih =>
    simp only [List.cons_append, List.takeWhile, h c (by simp)]
    simp [ih (fun y hy => h y (by simp [hy]))]

theorem dropWhile_append_of {p : Char → Bool} {l r : List Char} {x : Char}
    (h : ∀ c ∈ l, p c = true) (hx : p x = false) :
    (l ++ x :: r).dropWhile p = x :: r := by
  induction l with
  | nil => simp [List.dropWhile, hx]
  | cons c cs ih =>
    simp only [List.cons_append, List.dropWhile, h c (by simp)]
    exact ih (fun y hy => h y (by simp [hy]))

/-! ### leadsWith helpers -/

theorem leadsWith_append (a b : List Char) : leadsWith a (a ++ b) = true := by
  induction a with
  | nil => rfl
  | cons c cs ih => simp [leadsWith, ih]

theorem leadsWith_drop {lit : List Char} :
    ∀ {s : List Char}, leadsWith lit s = true → s = lit ++ s.drop lit.length := by
  induction lit with
  | nil => intro s _; rfl
  | cons c cs ih =>
    intro s h
    cases s with
    | nil => simp [leadsWith] at h
    | cons d ds =>
      simp only [leadsWith] at h
      by_cases hcd : c = d
      · subst hcd
        simp only [if_pos rfl] at h
        simpa using ih h
      · simp [if_neg hcd] at h

theorem leadsWith_length {lit s : List Char} (h : leadsWith lit s = true) :
    lit.length ≤ s.length := by
  have := leadsWith_drop h
  rw [this]
  simp

end SQLMySQL

namespace SQLMySQL

/-! ### Per-matcher head lemmas: each pattern can only fire on its first
character, so a text avoiding the trigger characters is left unchanged. -/

theorem leadsWith_false_of_head {a c : Char} {as cs : List Char} (h : c ≠ a) :
    leadsWith (a :: as) (c :: cs) = false := by
  simp [leadsWith, if_neg (Ne.symm h)]

theorem matchLit_none_of_head {a : Char} {as : List Char} (rep : List Char)
    {p : Option Char} {c : Char} {cs : List Char}
    (h : c ≠ a) : matchLit (a :: as) rep p (c :: cs) = none := by
  simp [matchLit, leadsWith_false_of_head h]

theorem matchDbo_none_of_head {p : Option Char} {c : Char} {cs : List Char}
    (h : c ≠ '[') : matchDbo p (c :: cs) = none := by
  have hlw : leadsWith ['[', 'd', 'b', 'o', ']', '.', '['] (c :: cs) = false :=
    leadsWith_false_of_head h
  simp [matchDbo, hlw]

theorem matchBr_none_of_head {p : Option Char} {c : Char} {cs : List Char}
    (h : c ≠ '[') : matchBr p (c :: cs) = none := by
  simp [matchBr, if_neg h]

theorem matchLen_none_of_head {p : Option Char} {c : Char} {cs : List Char}
    (h : c ≠ 'L') : matchLen p (c :: cs) = none := by
  have hlw : leadsWith ['L', 'E', 'N', '('] (c :: cs) = false :=
    leadsWith_false_of_head h
  simp [matchLen, hlw]

theorem matchIsnull_none_of_head {p : Option Char} {c : Char} {cs : List Char}
    (h : c ≠ 'I') : matchIsnull p (c :: cs) = none := by
  have hlw : leadsWith ['I', 'S', 'N', 'U', 'L', 'L', '('] (c :: cs) = false :=
    leadsWith_false_of_head h
  simp [matchIsnull, hlw]

theorem matchTop_none_of_head {p : Option Char} {c : Char} {cs : List Char}
    (h1 : c ≠ 'T') (h2 : c ≠ 't') : matchTop p (c :: cs) = none := by
  simp [matchTop, h1, h2]

end SQLMySQL

namespace SQLMySQL

theorem space_ne_triggers {c : Char} (h : spaceChar c = true) :
    c ≠ '[' ∧ c ≠ 'G' ∧ c ≠ 'N' ∧ c ≠ 'L' ∧ c ≠ 'I' ∧ c ≠ 'T' ∧ c ≠ 't' := by
  simp only [spaceChar, Bool.or_eq_true, decide_eq_true_eq] at h
  rcases h with ((((h | h) | h) | h) | h) | h <;> subst h <;> decide

theorem digit_ne_triggers {c : Char} (h : c.isDigit = true) :
    c ≠ '[' ∧ c ≠ 'G' ∧ c ≠ 'N' ∧ c ≠ 'L' ∧ c ≠ 'I' := by
  refine ⟨?_, ?_, ?_, ?_, ?_⟩ <;> (rintro rfl; exact absurd h (by decide))

/-- no conversion rule can fire at a character other than its trigger. -/
theorem conversions_none {p : Option Char} {ch : Char} {cs : List Char}
    (h1 : ch ≠ '[') (h2 : ch ≠ 'G') (h3 : ch ≠ 'N') (h4 : ch ≠ 'L') (h5 : ch ≠ 'I')
    (h6 : ch ≠ 'T') (h7 : ch ≠ 't') :
    ∀ r ∈ conversions, r.matcher p (ch :: cs) = none := by
  intro r hr
  simp only [conversions, List.mem_cons, List.not_mem_nil, or_false] at hr
  rcases hr with h | h | h | h | h | h | h | h <;> subst h
  · exact @matchDbo_none_of_head p ch cs h1
  · exact @matchBr_none_of_head p ch cs h1
  · exact @matchLit_none_of_head 'G' "ETDATE()".toList "NOW()".toList p ch cs h2
  · exact @matchLit_none_of_head 'G' "ETUTCDATE()".toList "UTC_TIMESTAMP()".toList p ch cs h2
  · exact @matchLit_none_of_head 'N' "EWID()".toList "UUID()".toList p ch cs h3
  · exact @matchLen_none_of_head p ch cs h4
  · exact @matchIsnull_none_of_head p ch cs h5
  · exact @matchTop_none_of_head p ch cs h6 h7

/-- a text on which no rule can fire anywhere is a fixed point of the pass. -/
theorem applyAll_id_of_none {s : List Char}
    (hm : ∀ r ∈ conversions, ∀ (p : Option Char) (c : Char) (cs : List Char),
      c ∈ s → r.matcher p (c :: cs) = none) : applyAll s = s :=
  foldl_fixed (fun r hr => scanRule_id_of_none (fun p c cs hc => hm r hr p c cs hc))

/-- a text in which no rule's pattern has a match is a fixed point of the pass. -/
theorem applyAll_id_of_counts {s : List Char}
    (h : ∀ r ∈ conversions, countMatches r.matcher s = 0) : applyAll s = s :=
  foldl_fixed (fun r hr => scanRule_id_of_count (h r hr))

/-- the pass `applyAll` written out rule by rule. -/
theorem applyAll_expand (s : List Char) :
    applyAll s =
      scanRule matchTop (scanRule matchIsnull (scanRule matchLen
        (scanRule (matchLit "NEWID()".toList "UUID()".toList)
          (scanRule (matchLit "GETUTCDATE()".toList "UTC_TIMESTAMP()".toList)
            (scanRule (matchLit "GETDATE()".toList "NOW()".toList)
              (scanRule matchBr (scanRule matchDbo s))))))) := by
  simp only [applyAll, conversions, List.foldl]

/-! ### Claim C1 -/

/-- C1, counterexample: the transformer is not idempotent.  On `[[x]]` the
bracket rule's single pass yields `[x]`, which still matches the bracket
pattern, so a second pass yields `x`. -/
theorem c1_fixed_point_counterexample :
    applyAll (applyAll "[[x]]".toList) ≠ applyAll "[[x]]".toList := by decide

/-- C1 (amended): a second application of the transformer is the identity
whenever the first pass's output matches no rule's pattern; the unrestricted
fixed-point claim fails because a rule's output can re-match a pattern
(nested brackets). -/
theorem c1_fixed_point_amended (t : List Char)
    (h : ∀ r ∈ conversions, countMatches r.matcher (applyAll t) = 0) :
    applyAll (applyAll t) = applyAll t :=
  applyAll_id_of_counts h

theorem c1_fixed_point_witness :
    (∀ r ∈ conversions, countMatches r.matcher (applyAll "[a] TOP 3".toList) = 0) ∧
      applyAll (applyAll "[a] TOP 3".toList) = applyAll "[a] TOP 3".toList :=
  ⟨by decide, c1_fixed_point_amended "[a] TOP 3".toList (by decide)⟩

/-! ### Claim C5 -/

/-- C5, counterexample: a zero-length source is not rejected: `convertAndSave`
reports success and writes the provenance header followed by the (empty)
converted body.  No `EmptyInput` error exists in the conversion path. -/
theorem c5_empty_input_counterexample :
    (convertAndSave "2024-01-01T00:00:00.000Z".toList (some [])).1.success = true ∧
      (convertAndSave "2024-01-01T00:00:00.000Z".toList (some [])).2 =
        some (mkHeader "2024-01-01T00:00:00.000Z".toList) := by
  constructor
  · rfl
  · decide

/-- C5 (amended): a zero-length or whitespace-only source below the size
threshold is converted successfully — the result is the provenance header
followed by the unchanged source — rather than failing with an `EmptyInput`
error. -/
theorem c5_empty_input_amended (ts c : List Char)
    (hsp : ∀ ch ∈ c, spaceChar ch = true) (hsz : c.length ≤ thresholdBytes) :
    convertAndSave ts (some c) = ({ success := true }, some (mkHeader ts ++ c)) := by
  have hid : applyAll c = c :=
    applyAll_id_of_none (fun r hr p ch cs hc => by
      obtain ⟨n1, n2, n3, n4, n5, n6, n7⟩ := space_ne_triggers (hsp ch hc)
      exact conversions_none n1 n2 n3 n4 n5 n6 n7 r hr)
  simp [convertAndSave, if_neg (not_lt.mpr hsz), convertToMySQL, hid]

theorem c5_empty_input_witness :
    (∀ ch ∈ (" \n\t".toList : List Char), spaceChar ch = true) ∧
      (" \n\t".toList : List Char).length ≤ thresholdBytes ∧
      convertAndSave "T".toList (some " \n\t".toList) =
        ({ success := true }, some (mkHeader "T".toList ++ " \n\t".toList)) :=
  ⟨by decide, by decide, c5_empty_input_amended _ _ (by decide) (by decide)⟩

end SQLMySQL

namespace SQLMySQL

/-! ### Claim C3 -/

/-- rule 1 fires on a `dbo`-qualified bracketed identifier, replacing it with
the bare name. -/
theorem matchDbo_fire {p : Option Char} {w v : List Char} (hw : w ≠ [])
    (hww : ∀ c ∈ w, wordChar c = true) :
    matchDbo p ("[dbo].[".toList ++ w ++ ']' :: v) =
      some { rep := w, extra := 7 + w.length, last := ']' } := by
  have hdrop : ("[dbo].[".toList ++ w ++ ']' :: v).drop 7 = w ++ ']' :: v := by
    rw [List.append_assoc, show (7 : Nat) = ("[dbo].[".toList).length from rfl]
    exact List.drop_left _ _
  have htw : (w ++ ']' :: v).takeWhile wordChar = w :=
    takeWhile_append_of hww (by decide)
  have hdw : (w ++ ']' :: v).dropWhile wordChar = ']' :: v :=
    dropWhile_append_of hww (by decide)
  have hlw : leadsWith "[dbo].[".toList ("[dbo].[".toList ++ w ++ ']' :: v) = true := by
    rw [List.append_assoc]; exact leadsWith_append _ _
  simp only [matchDbo, hlw, if_true, hdrop, htw, hdw]
  simp [hw]

/-- applying rule 1 to `u ++ [dbo].[w] ++ v`, where the context contains no
`[`, rewrites exactly the qualified identifier. -/
theorem scanGo_dbo_hom {w v : List Char} (hw : w ≠ []) (hww : ∀ c ∈ w, wordChar c = true)
    (hv : '[' ∉ v) :
    ∀ (u : List Char) (fuel : Nat) (prev : Option Char), '[' ∉ u → u.length < fuel →
      scanGo matchDbo fuel prev (u ++ "[dbo].[".toList ++ w ++ ']' :: v) = u ++ w ++ v := by
  intro u
  induction u with
  | nil =>
    intro fuel prev _ hfuel
    cases fuel with
    | zero => omega
    | succ f =>
      have hfire : matchDbo prev ('[' :: ("dbo].[".toList ++ w ++ ']' :: v)) =
          some { rep := w, extra := 7 + w.length, last := ']' } :=
        @matchDbo_fire prev w v hw hww
      rw [show ([] : List Char) ++ "[dbo].[".toList ++ w ++ ']' :: v =
            '[' :: ("dbo].[".toList ++ w ++ ']' :: v) from by simp]
      rw [scanGo_cons_some f hfire]
      have hgroup : "dbo].[".toList ++ w ++ ']' :: v = ("dbo].[".toList ++ w ++ [']']) ++ v := by
        simp
      have hlen : ("dbo].[".toList ++ w ++ [']']).length = 7 + w.length := by
        simp [List.length_append]
        omega
      rw [show ({ rep := w, extra := 7 + w.length, last := ']' } : MStep).extra =
            7 + w.length from rfl,
          show ({ rep := w, extra := 7 + w.length, last := ']' } : MStep).rep = w from rfl]
      rw [hgroup, show (7 + w.length : Nat) = ("dbo].[".toList ++ w ++ [']']).length from
            hlen.symm, List.drop_left]
      rw [scanGo_id_of_none (fun p' c' cs' hc' =>
            matchDbo_none_of_head (fun hceq => hv (hceq ▸ hc'))) f _]
      simp
  | cons c u' ih =>
    intro fuel prev hcu hfuel
    have hc : c ≠ '[' := fun hceq => hcu (by simp [hceq])
    cases fuel with
    | zero => omega
    | succ f =>
      have hlt : u'.length < f := by
        simp [List.length_cons] at hfuel; omega
      rw [show (c :: u') ++ "[dbo].[".toList ++ w ++ ']' :: v =
            c :: (u' ++ "[dbo].[".toList ++ w ++ ']' :: v) from by simp]
      rw [scanGo_cons_none f (matchDbo_none_of_head hc)]
      rw [ih f (some c) (fun hmem => hcu (by simp [hmem])) hlt]
      simp

/-- C3, counterexample: for a schema other than `dbo` the schema token is NOT
discarded: `[abc].[T]` converts to `abc.T`, which still contains the schema
token `abc` (only the brackets are removed, by rule 2). -/
theorem c3_schema_counterexample :
    applyAll "[abc].[T]".toList = "abc.T".toList ∧
      ∃ a b, applyAll "[abc].[T]".toList = a ++ "abc".toList ++ b :=
  ⟨by decide, ⟨[], ".T".toList, by decide⟩⟩

/-- C3 (amended): only the literal schema `dbo` is discarded.  For every
context free of `[` and every nonempty word-character name `w`, the pass sends
`u ++ [dbo].[w] ++ v` to the same result as `u ++ w ++ v`: the brackets and
the `dbo` schema token of the qualified identifier disappear and the bare
name remains.  Other schemas only lose their brackets. -/
theorem c3_schema_amended (u v w : List Char) (hu : '[' ∉ u) (hv : '[' ∉ v)
    (hw : w ≠ []) (hww : ∀ c ∈ w, wordChar c = true) :
    applyAll (u ++ "[dbo].[".toList ++ w ++ ']' :: v) = applyAll (u ++ w ++ v) := by
  have h1 : scanRule matchDbo (u ++ "[dbo].[".toList ++ w ++ ']' :: v) = u ++ w ++ v := by
    apply scanGo_dbo_hom hw hww hv u _ none hu
    simp [List.length_append]
  have h2 : scanRule matchDbo (u ++ w ++ v) = u ++ w ++ v := by
    apply scanRule_id_of_none
    intro p c cs hc
    apply matchDbo_none_of_head
    intro hceq
    subst hceq
    rcases List.mem_append.mp hc with hM | hM
    · rcases List.mem_append.mp hM with hM2 | hM2
      · exact hu hM2
      · exact absurd (hww _ hM2) (by decide)
    · exact hv hM
  rw [applyAll_expand, applyAll_expand, h1, h2]

theorem c3_schema_witness :
    ('[' ∉ "SELECT * FROM ".toList) ∧ ('[' ∉ " WHERE x = 1".toList) ∧
      ("Users".toList ≠ []) ∧ (∀ c ∈ "Users".toList, wordChar c = true) ∧
      applyAll ("SELECT * FROM ".toList ++ "[dbo].[".toList ++ "Users".toList ++
          ']' :: " WHERE x = 1".toList) =
        applyAll ("SELECT * FROM ".toList ++ "Users".toList ++ " WHERE x = 1".toList) :=
  ⟨by decide, by decide, by decide, by decide,
    c3_schema_amended _ _ _ (by decide) (by decide) (by decide) (by decide)⟩

end SQLMySQL

namespace SQLMySQL

/-! ### Claim C4 -/

theorem digit_not_space {c : Char} (h : c.isDigit = true) : spaceChar c = false := by
  cases hsp : spaceChar c with
  | false => rfl
  | true =>
    exfalso
    simp only [spaceChar, Bool.or_eq_true, decide_eq_true_eq] at hsp
    rcases hsp with ((((hsp | hsp) | hsp) | hsp) | hsp) | hsp <;> subst hsp <;>
      exact absurd h (by decide)

/-- rule 8 fires on lowercase `top ` followed by digits (the pattern carries
the `i` flag). -/
theorem matchTop_fire_low {ds : List Char} (hne : ds ≠ []) (hds : ∀ c ∈ ds, c.isDigit = true) :
    matchTop none ('t' :: 'o' :: 'p' :: ' ' :: ds) =
      some { rep := "LIMIT ".toList ++ ds, extra := 3 + ds.length, last := ds.getLastD '0' } := by
  have hsp0 : ds.takeWhile spaceChar = [] :=
    takeWhile_eq_nil_of (fun c hc => digit_not_space (hds c hc))
  have hsp1 : ds.dropWhile spaceChar = ds :=
    dropWhile_eq_self_of (fun c hc => digit_not_space (hds c hc))
  have hd0 : ds.takeWhile Char.isDigit = ds := takeWhile_eq_self_of hds
  have hd1 : ds.dropWhile Char.isDigit = [] := dropWhile_eq_nil_of hds
  simp only [matchTop, List.takeWhile_cons, List.dropWhile_cons,
    show spaceChar ' ' = true from rfl, hsp0, hsp1, hd0, hd1]
  simp [boundary, hne]
  refine ⟨?_, ?_, hds, by rw [hd0], by rw [hd0]⟩
  · rcases ds with _ | ⟨d0, ds'⟩
    · exact absurd rfl hne
    · exact ⟨by simp, by simpa using hds d0 (by simp)⟩
  · rw [hd1]; rfl

theorem scanTop_digits {ds : List Char} (hne : ds ≠ []) (hds : ∀ c ∈ ds, c.isDigit = true) :
    scanRule matchTop ("top ".toList ++ ds) = "LIMIT ".toList ++ ds := by
  show scanGo matchTop (("top ".toList ++ ds).length) none ("top ".toList ++ ds) = _
  have hflen : ("top ".toList ++ ds).length = ds.length + 4 := by
    simp [List.length_append]
  rw [hflen, show "top ".toList ++ ds = 't' :: ('o' :: 'p' :: ' ' :: ds) from rfl,
    show ds.length + 4 = (ds.length + 3) + 1 from rfl,
    scanGo_cons_some _ (matchTop_fire_low hne hds)]
  have hdropall : ('o' :: 'p' :: ' ' :: ds).drop (3 + ds.length) = [] := by
    have hl : ('o' :: 'p' :: ' ' :: ds).length = 3 + ds.length := by simp; omega
    rw [← hl, List.drop_length]
  simp [hdropall, scanGo_nil]

/-- C4: case-sensitivity asymmetry.  A lowercase row-limiting keyword followed
by an integer is converted to `LIMIT`, while a lowercase `getdate()` call is
left unchanged because only the exact-case `GETDATE()` token is recognized. -/
theorem c4_case_sensitivity :
    (∀ ds : List Char, ds ≠ [] → (∀ c ∈ ds, c.isDigit = true) →
        applyAll ("top ".toList ++ ds) = "LIMIT ".toList ++ ds) ∧
      applyAll "getdate()".toList = "getdate()".toList := by
  constructor
  · intro ds hne hds
    have hchars : ∀ c ∈ ("top ".toList ++ ds),
        c ≠ '[' ∧ c ≠ 'G' ∧ c ≠ 'N' ∧ c ≠ 'L' ∧ c ≠ 'I' := by
      intro c hc
      rw [show "top ".toList ++ ds = 't' :: 'o' :: 'p' :: ' ' :: ds from rfl] at hc
      simp only [List.mem_cons] at hc
      rcases hc with hc | hc | hc | hc | hc
      · subst hc; exact ⟨by decide, by decide, by decide, by decide, by decide⟩
      · subst hc; exact ⟨by decide, by decide, by decide, by decide, by decide⟩
      · subst hc; exact ⟨by decide, by decide, by decide, by decide, by decide⟩
      · subst hc; exact ⟨by decide, by decide, by decide, by decide, by decide⟩
      · exact digit_ne_triggers (hds c hc)
    have e1 : scanRule matchDbo ("top ".toList ++ ds) = "top ".toList ++ ds :=
      scanRule_id_of_none (fun p c cs hc => matchDbo_none_of_head (hchars c hc).1)
    have e2 : scanRule matchBr ("top ".toList ++ ds) = "top ".toList ++ ds :=
      scanRule_id_of_none (fun p c cs hc => matchBr_none_of_head (hchars c hc).1)
    have e3 : scanRule (matchLit "GETDATE()".toList "NOW()".toList)
        ("top ".toList ++ ds) = "top ".toList ++ ds :=
      scanRule_id_of_none (fun p c cs hc =>
        @matchLit_none_of_head 'G' "ETDATE()".toList "NOW()".toList p c cs (hchars c hc).2.1)
    have e4 : scanRule (matchLit "GETUTCDATE()".toList "UTC_TIMESTAMP()".toList)
        ("top ".toList ++ ds) = "top ".toList ++ ds :=
      scanRule_id_of_none (fun p c cs hc =>
        @matchLit_none_of_head 'G' "ETUTCDATE()".toList "UTC_TIMESTAMP()".toList p c cs
          (hchars c hc).2.1)
    have e5 : scanRule (matchLit "NEWID()".toList "UUID()".toList)
        ("top ".toList ++ ds) = "top ".toList ++ ds :=
      scanRule_id_of_none (fun p c cs hc =>
        @matchLit_none_of_head 'N' "EWID()".toList "UUID()".toList p c cs (hchars c hc).2.2.1)
    have e6 : scanRule matchLen ("top ".toList ++ ds) = "top ".toList ++ ds :=
      scanRule_id_of_none (fun p c cs hc => matchLen_none_of_head (hchars c hc).2.2.2.1)
    have e7 : scanRule matchIsnull ("top ".toList ++ ds) = "top ".toList ++ ds :=
      scanRule_id_of_none (fun p c cs hc => matchIsnull_none_of_head (hchars c hc).2.2.2.2)
    rw [applyAll_expand, e1, e2, e3, e4, e5, e6, e7, scanTop_digits hne hds]
  · decide

theorem c4_case_sensitivity_witness :
    ("10".toList ≠ []) ∧ (∀ c ∈ "10".toList, c.isDigit = true) ∧
      applyAll ("top ".toList ++ "10".toList) = "LIMIT ".toList ++ "10".toList :=
  ⟨by decide, by decide, c4_case_sensitivity.1 "10".toList (by decide) (by decide)⟩

end SQLMySQL

namespace SQLMySQL

/-! ### Claim C2 -/

theorem normTerm_id {s : List Char} (h : ∀ c ∈ s, c ≠ '\r') : normTerm s = s := by
  induction s with
  | nil => rfl
  | cons c cs ih =>
    unfold normTerm
    rw [if_neg (h c (by simp)), ih (fun x hx => h x (by simp [hx]))]

theorem splitNl_no_nl {s : List Char} (h : ∀ c ∈ s, c ≠ '\n') : splitNl s = [s] := by
  induction s with
  | nil => rfl
  | cons c cs ih =>
    unfold splitNl
    rw [if_neg (h c (by simp)), ih (fun x hx => h x (by simp [hx]))]

theorem splitLines_single {s : List Char} (hne : s ≠ [])
    (h : ∀ c ∈ s, c ≠ '\n' ∧ c ≠ '\r') : splitLines s = [s] := by
  cases s with
  | nil => exact absurd rfl hne
  | cons c cs =>
    have hnorm : normTerm (c :: cs) = c :: cs := normTerm_id (fun x hx => (h x hx).2)
    have hsplit : splitNl (c :: cs) = [c :: cs] := splitNl_no_nl (fun x hx => (h x hx).1)
    show (if (splitNl (normTerm (c :: cs))).getLast? = some [] then
            (splitNl (normTerm (c :: cs))).dropLast
          else splitNl (normTerm (c :: cs))) = [c :: cs]
    rw [hnorm, hsplit]
    simp

/-- projecting the per-line fold onto its text component gives the plain pass. -/
theorem foldl_pair_fst {α : Type} (f : α → Rule → α) (g : α → Bool → Rule → Bool) :
    ∀ (rs : List Rule) (s : α) (b : Bool),
      (List.foldl (fun p r => (f p.1 r, g p.1 p.2 r)) (s, b) rs).1 = List.foldl f s rs := by
  intro rs
  induction rs with
  | nil => intro s b; rfl
  | cons r rs ih => intro s b; exact ih (f s r) (g s b r)

theorem convertLineFlag_fst (l : List Char) : (convertLineFlag l).1 = applyAll l :=
  foldl_pair_fst (fun s r => scanRule r.matcher s)
    (fun s b r => b || decide (¬ scanRule r.matcher s = s)) conversions l false

/-- the streaming output is the header followed by the streamed body. -/
theorem streamingOut_eq (ts s : List Char) :
    (convertLargeFileStreaming ts s).1 = mkHeader ts ++ streamBody s := rfl

/-- C2, counterexample: the two pipelines' bodies can differ beyond
trailing-newline normalization.  On `[a\nb]` (below the threshold) the
buffered pass removes the brackets — the bracket pattern matches across the
line break — while the streaming pass converts each line separately and
leaves them: the bodies differ even after stripping trailing newlines. -/
theorem c2_mode_equiv_counterexample :
    "[a\nb]".toList.length ≤ thresholdBytes ∧
      rstripNl (streamBody "[a\nb]".toList) ≠ rstripNl (applyAll "[a\nb]".toList) :=
  ⟨by decide, by decide⟩

/-- C2 (amended): for a nonempty input below the size threshold containing no
line terminator, the buffered pipeline writes `header ++ body` and the
streaming pipeline writes `header ++ body ++ "\n"` with the same body — they
agree up to the streaming pipeline's trailing newline (and the timestamp both
headers are parametrized by).  For multi-line inputs the bodies can differ
whenever a rule's match spans a line terminator. -/
theorem c2_mode_equiv_amended (ts c : List Char) (hne : c ≠ [])
    (h : ∀ ch ∈ c, ch ≠ '\n' ∧ ch ≠ '\r') (hsz : c.length ≤ thresholdBytes) :
    (convertAndSave ts (some c)).2 = some (mkHeader ts ++ applyAll c) ∧
      (convertLargeFileStreaming ts c).1 = mkHeader ts ++ (applyAll c ++ ['\n']) := by
  constructor
  · simp [convertAndSave, if_neg (not_lt.mpr hsz), convertToMySQL]
  · rw [streamingOut_eq]
    have hsplit : splitLines c = [c] := splitLines_single hne h
    have hbody : streamBody c = applyAll c ++ ['\n'] := by
      simp [streamBody, hsplit, streamFold, convertLineFlag_fst]
    rw [hbody]

theorem c2_mode_equiv_witness :
    ("[x] GETDATE()".toList ≠ []) ∧
      (∀ ch ∈ "[x] GETDATE()".toList, ch ≠ '\n' ∧ ch ≠ '\r') ∧
      "[x] GETDATE()".toList.length ≤ thresholdBytes ∧
      ((convertAndSave "T".toList (some "[x] GETDATE()".toList)).2 =
          some (mkHeader "T".toList ++ applyAll "[x] GETDATE()".toList) ∧
        (convertLargeFileStreaming "T".toList "[x] GETDATE()".toList).1 =
          mkHeader "T".toList ++ (applyAll "[x] GETDATE()".toList ++ ['\n'])) :=
  ⟨by decide, by decide, by decide,
    c2_mode_equiv_amended _ _ (by decide) (by decide) (by decide)⟩

end SQLMySQL

namespace SQLMySQL

/-! ### Claim C6 -/

theorem splitNl_nl (r : List Char) : splitNl ('\n' :: r) = [] :: splitNl r := by
  conv_lhs => unfold splitNl
  simp

theorem splitNl_line {a : List Char} (r : List Char) (h : '\n' ∉ a) :
    splitNl (a ++ '\n' :: r) = a :: splitNl r := by
  induction a with
  | nil => simpa using splitNl_nl r
  | cons c as ih =>
    have hc : c ≠ '\n' := fun hh => h (by simp [hh])
    have ih' := ih (fun hh => h (by simp [hh]))
    simp only [List.cons_append]
    conv_lhs => unfold splitNl
    rw [if_neg hc, ih']

/-- the output of either mode, viewed as `header ++ body`, parsed
line by line. -/
theorem header_shape (ts body : List Char) :
    mkHeader ts ++ body =
      "-- Converted from SQL Server to MySQL".toList ++ '\n' ::
        (("-- Generated on: ".toList ++ ts) ++ '\n' ::
          ("-- Use with caution and verify before executing".toList ++ '\n' ::
            ('\n' :: body))) := by
  simp only [mkHeader]
  rw [show "-- Converted from SQL Server to MySQL\n-- Generated on: ".toList =
        "-- Converted from SQL Server to MySQL".toList ++ '\n' :: "-- Generated on: ".toList
      from by decide]
  rw [show "\n-- Use with caution and verify before executing\n\n".toList =
        '\n' :: ("-- Use with caution and verify before executing".toList ++ '\n' :: '\n' :: [])
      from by decide]
  simp [List.append_assoc]

theorem splitNl_header (ts body : List Char) (hts : '\n' ∉ ts) :
    splitNl (mkHeader ts ++ body) =
      "-- Converted from SQL Server to MySQL".toList ::
        ("-- Generated on: ".toList ++ ts) ::
        "-- Use with caution and verify before executing".toList :: [] :: splitNl body := by
  have hg : '\n' ∉ ("-- Generated on: ".toList ++ ts) := by
    intro hmem
    rcases List.mem_append.mp hmem with hh | hh
    · exact absurd hh (by decide)
    · exact hts hh
  rw [header_shape, splitNl_line _ (by decide), splitNl_line _ hg,
    splitNl_line _ (by decide), splitNl_nl]

/-- C6: in both modes the output is the provenance header followed by the
body: split on newlines it begins with exactly the three comment lines
(conversion marker, generation timestamp, caution notice) and then one blank
line; in streaming mode the header precedes every data line, the output being
literally `header ++ streamed body`. -/
theorem c6_header_three_lines (ts c : List Char) (hts : '\n' ∉ ts) :
    splitNl (convertToMySQL ts c) =
      "-- Converted from SQL Server to MySQL".toList ::
        ("-- Generated on: ".toList ++ ts) ::
        "-- Use with caution and verify before executing".toList :: [] ::
        splitNl (applyAll c) ∧
      splitNl ((convertLargeFileStreaming ts c).1) =
        "-- Converted from SQL Server to MySQL".toList ::
          ("-- Generated on: ".toList ++ ts) ::
          "-- Use with caution and verify before executing".toList :: [] ::
          splitNl (streamBody c) ∧
      (convertLargeFileStreaming ts c).1 = mkHeader ts ++ streamBody c :=
  ⟨splitNl_header ts (applyAll c) hts,
    by rw [streamingOut_eq]; exact splitNl_header ts (streamBody c) hts,
    streamingOut_eq ts c⟩

theorem c6_header_three_lines_witness :
    ('\n' ∉ "2024-01-01T00:00:00.000Z".toList) ∧
      (splitNl (convertToMySQL "2024-01-01T00:00:00.000Z".toList "x".toList) =
          "-- Converted from SQL Server to MySQL".toList ::
            ("-- Generated on: ".toList ++ "2024-01-01T00:00:00.000Z".toList) ::
            "-- Use with caution and verify before executing".toList :: [] ::
            splitNl (applyAll "x".toList) ∧
        splitNl ((convertLargeFileStreaming "2024-01-01T00:00:00.000Z".toList "x".toList).1) =
          "-- Converted from SQL Server to MySQL".toList ::
            ("-- Generated on: ".toList ++ "2024-01-01T00:00:00.000Z".toList) ::
            "-- Use with caution and verify before executing".toList :: [] ::
            splitNl (streamBody "x".toList) ∧
        (convertLargeFileStreaming "2024-01-01T00:00:00.000Z".toList "x".toList).1 =
          mkHeader "2024-01-01T00:00:00.000Z".toList ++ streamBody "x".toList) :=
  ⟨by decide, c6_header_three_lines _ _ (by decide)⟩

/-! ### Claim C7 -/

/-- C7: the per-rule statistics are computed on the unmodified original text,
independently per rule: they do not depend on the converted text at all, and
on `[dbo].[x]` the bracket rule is reported with 2 matches even though, by
the time it runs during conversion, rule 1 has already rewritten the text to
`x` and the bracket rule matches nothing — the reported count diverges from
the characters actually changed. -/
theorem c7_stats_on_original :
    (∀ o c c' : List Char,
        (getConversionStats o c).conversionsApplied =
          (getConversionStats o c').conversionsApplied) ∧
      (getConversionStats "[dbo].[x]".toList
          (applyAll "[dbo].[x]".toList)).conversionsApplied =
        [{ pattern := "/\\[dbo\\]\\.\\[(\\w+)\\]/g", count := 1 },
         { pattern := "/\\[([^\\]]+)\\]/g", count := 2 }] ∧
      applyAll "[dbo].[x]".toList = "x".toList ∧
      countMatches matchBr (applyAll "[dbo].[x]".toList) = 0 :=
  ⟨fun o c c' => rfl, by decide, by decide, by decide⟩

/-! ### Claim C10 -/

theorem foldl_push_filter {α β : Type} (P : α → Prop) [DecidablePred P] (f : α → β) :
    ∀ (l : List α) (acc : List β),
      l.foldl (fun a r => if P r then a ++ [f r] else a) acc
        = acc ++ (l.filter (fun r => decide (P r))).map f := by
  intro l
  induction l with
  | nil => intro acc; simp
  | cons r rs ih =>
    intro acc
    rw [List.foldl_cons]
    by_cases hp : P r
    · rw [if_pos hp, ih]
      simp [List.filter_cons, hp]
    · rw [if_neg hp, ih]
      simp [List.filter_cons, hp]

/-- C10: `conversionsApplied` lists exactly the rules whose pattern has at
least one match in the original text — a rule with zero matches contributes
no entry (not even a zero-count one), each listed entry has a positive count,
and the list's length is the number of rules that matched. -/
theorem c10_stats_only_matching (o c : List Char) :
    (getConversionStats o c).conversionsApplied =
        (conversions.filter (fun r => 0 < countMatches r.matcher o)).map
          (fun r => { pattern := r.pattern, count := countMatches r.matcher o }) ∧
      (getConversionStats o c).conversionsApplied.length =
        (conversions.filter (fun r => 0 < countMatches r.matcher o)).length ∧
      ∀ e ∈ (getConversionStats o c).conversionsApplied, 0 < e.count := by
  have hmain : (getConversionStats o c).conversionsApplied =
      (conversions.filter (fun r => 0 < countMatches r.matcher o)).map
        (fun r => { pattern := r.pattern, count := countMatches r.matcher o }) := by
    have h2 := foldl_push_filter (fun r : Rule => 0 < countMatches r.matcher o)
      (fun r : Rule =>
        ({ pattern := r.pattern, count := countMatches r.matcher o } : RuleCount))
      conversions []
    simpa using h2
  refine ⟨hmain, by rw [hmain]; simp, ?_⟩
  intro e he
  rw [hmain] at he
  rcases List.mem_map.mp he with ⟨r, hr, rfl⟩
  simpa using (List.mem_filter.mp hr).2

end SQLMySQL

namespace SQLMySQL

/-! ### Claim C9 -/

/-- a readable file always converts successfully and appends one output. -/
theorem batchFold_readable (ts : List Char) (st : Nat × Nat × List (String × List Char))
    (name : String) (c : List Char) :
    ∃ out, batchFold ts st (name, some c) =
      (st.1 + 1, st.2.1, st.2.2 ++ [(name ++ "_mysql.sql", out)]) := by
  simp only [batchFold, convertAndSave]
  by_cases hb : thresholdBytes < c.length
  · rw [if_pos hb]; exact ⟨_, rfl⟩
  · rw [if_neg hb]; exact ⟨_, rfl⟩

/-- an unreadable file is recorded as one failure and produces no output. -/
theorem batchFold_unreadable (ts : List Char) (st : Nat × Nat × List (String × List Char))
    (name : String) :
    batchFold ts st (name, none) = (st.1, st.2.1 + 1, st.2.2) := rfl

theorem batchRun_counts (ts : List Char) :
    ∀ (files : List (String × Option (List Char))) (st : Nat × Nat × List (String × List Char)),
      (files.foldl (batchFold ts) st).1 = st.1 + (files.filter (fun f => f.2.isSome)).length ∧
      (files.foldl (batchFold ts) st).2.1 =
        st.2.1 + (files.filter (fun f => f.2.isNone)).length ∧
      (∀ x ∈ st.2.2, x ∈ (files.foldl (batchFold ts) st).2.2) ∧
      (∀ f ∈ files, f.2.isSome = true →
        ∃ out, (f.1 ++ "_mysql.sql", out) ∈ (files.foldl (batchFold ts) st).2.2) := by
  intro files
  induction files with
  | nil => intro st; exact ⟨by simp, by simp, fun x hx => hx, by simp⟩
  | cons f fs ih =>
    intro st
    rcases f with ⟨name, oc⟩
    cases oc with
    | none =>
      rw [List.foldl_cons, batchFold_unreadable]
      obtain ⟨h1, h2, h3, h4⟩ := ih (st.1, st.2.1 + 1, st.2.2)
      refine ⟨?_, ?_, ?_, ?_⟩
      · rw [h1]; simp [List.filter_cons]
      · rw [h2]; simp [List.filter_cons]; omega
      · exact fun x hx => h3 x hx
      · intro g hg hgs
        rcases List.mem_cons.mp hg with hg | hg
        · subst hg; simp at hgs
        · exact h4 g hg hgs
    | some c =>
      rw [List.foldl_cons]
      obtain ⟨out, hout⟩ := batchFold_readable ts st name c
      rw [hout]
      obtain ⟨h1, h2, h3, h4⟩ := ih (st.1 + 1, st.2.1, st.2.2 ++ [(name ++ "_mysql.sql", out)])
      refine ⟨?_, ?_, ?_, ?_⟩
      · rw [h1]; simp [List.filter_cons]; omega
      · rw [h2]; simp [List.filter_cons]
      · exact fun x hx => h3 x (by simp [hx])
      · intro g hg hgs
        rcases List.mem_cons.mp hg with hg | hg
        · subst hg
          exact ⟨out, h3 _ (by simp)⟩
        · exact h4 g hg hgs

/-- C9: a batch run over a directory with `N` readable matching files and one
unreadable file reports `N` successes and `1` failure, every readable file
still produces an output file, and the one failure does not halt the
processing of the other files (wherever it occurs in the list). -/
theorem c9_batch_partial_failure (ts : List Char)
    (files : List (String × Option (List Char))) (N : Nat)
    (hN : (files.filter (fun f => f.2.isSome)).length = N)
    (h1 : (files.filter (fun f => f.2.isNone)).length = 1) :
    (batchRun ts files).1 = N ∧ (batchRun ts files).2.1 = 1 ∧
      ∀ f ∈ files, f.2.isSome = true →
        ∃ out, (f.1 ++ "_mysql.sql", out) ∈ (batchRun ts files).2.2 := by
  obtain ⟨ha, hb, _, hd⟩ := batchRun_counts ts files (0, 0, [])
  refine ⟨?_, ?_, hd⟩
  · rw [show batchRun ts files = files.foldl (batchFold ts) (0, 0, []) from rfl, ha, hN]
    simp
  · rw [show batchRun ts files = files.foldl (batchFold ts) (0, 0, []) from rfl, hb, h1]

theorem c9_batch_partial_failure_witness :
    (([("a", some "GETDATE()".toList), ("bad", (none : Option (List Char))),
        ("b", some "[x]".toList)].filter (fun f => f.2.isSome)).length = 2) ∧
      (([("a", some "GETDATE()".toList), ("bad", (none : Option (List Char))),
        ("b", some "[x]".toList)].filter (fun f => f.2.isNone)).length = 1) ∧
      ((batchRun "T".toList [("a", some "GETDATE()".toList), ("bad", none),
          ("b", some "[x]".toList)]).1 = 2 ∧
        (batchRun "T".toList [("a", some "GETDATE()".toList), ("bad", none),
          ("b", some "[x]".toList)]).2.1 = 1 ∧
        ∀ f ∈ [("a", some "GETDATE()".toList), ("bad", (none : Option (List Char))),
            ("b", some "[x]".toList)], f.2.isSome = true →
          ∃ out, (f.1 ++ "_mysql.sql", out) ∈
            (batchRun "T".toList [("a", some "GETDATE()".toList), ("bad", none),
              ("b", some "[x]".toList)]).2.2) :=
  ⟨by decide, by decide,
    c9_batch_partial_failure "T".toList _ 2 (by decide) (by decide)⟩

end SQLMySQL

namespace SQLMySQL

/-! ### Claim C8: first, every rule that matches changes the text.
For the six rules whose replacement length differs from the matched length by
a uniform amount this follows from length accounting; for the two others
(`ISNULL` and `TOP`) the replacement differs from the matched text within its
first two characters. -/

theorem scanGo_len_shrink {m : Matcher} {d : Nat}
    (hm : ∀ (p : Option Char) (c : Char) (cs : List Char) (st : MStep),
      m p (c :: cs) = some st → st.rep.length + d = st.extra + 1 ∧ st.extra ≤ cs.length) :
    ∀ (fuel : Nat) (p : Option Char) (s : List Char),
      (scanGo m fuel p s).length + d * countGo m fuel p s = s.length := by
  intro fuel
  induction fuel with
  | zero => intro p s; rw [scanGo_zero, countGo_zero]; omega
  | succ fuel ih =>
    intro p s
    cases s with
    | nil => rw [scanGo_nil, countGo_nil]; omega
    | cons c cs =>
      cases hmm : m p (c :: cs) with
      | none =>
        rw [scanGo_cons_none fuel hmm, countGo_cons_none fuel hmm]
        have hrec := ih (some c) cs
        simp only [List.length_cons]
        omega
      | some st =>
        rw [scanGo_cons_some fuel hmm, countGo_cons_some fuel hmm]
        obtain ⟨he, hle⟩ := hm p c cs st hmm
        have hrec := ih (some st.last) (cs.drop st.extra)
        have hdl : (cs.drop st.extra).length = cs.length - st.extra := List.length_drop _ _
        simp only [List.length_append, List.length_cons, Nat.mul_succ]
        omega

theorem scanGo_len_grow {m : Matcher} {d : Nat}
    (hm : ∀ (p : Option Char) (c : Char) (cs : List Char) (st : MStep),
      m p (c :: cs) = some st → st.extra + 1 + d = st.rep.length ∧ st.extra ≤ cs.length) :
    ∀ (fuel : Nat) (p : Option Char) (s : List Char),
      (scanGo m fuel p s).length = s.length + d * countGo m fuel p s := by
  intro fuel
  induction fuel with
  | zero => intro p s; rw [scanGo_zero, countGo_zero]; omega
  | succ fuel ih =>
    intro p s
    cases s with
    | nil => rw [scanGo_nil, countGo_nil]; omega
    | cons c cs =>
      cases hmm : m p (c :: cs) with
      | none =>
        rw [scanGo_cons_none fuel hmm, countGo_cons_none fuel hmm]
        have hrec := ih (some c) cs
        simp only [List.length_cons]
        omega
      | some st =>
        rw [scanGo_cons_some fuel hmm, countGo_cons_some fuel hmm]
        obtain ⟨he, hle⟩ := hm p c cs st hmm
        have hrec := ih (some st.last) (cs.drop st.extra)
        have hdl : (cs.drop st.extra).length = cs.length - st.extra := List.length_drop _ _
        simp only [List.length_append, List.length_cons, Nat.mul_succ]
        omega

theorem scanRule_ne_of_shrink {m : Matcher} {d : Nat} (hd : 0 < d)
    (hm : ∀ (p : Option Char) (c : Char) (cs : List Char) (st : MStep),
      m p (c :: cs) = some st → st.rep.length + d = st.extra + 1 ∧ st.extra ≤ cs.length)
    {s : List Char} (hc : 0 < countMatches m s) : scanRule m s ≠ s := by
  intro heq
  have := scanGo_len_shrink hm s.length none s
  rw [show scanGo m s.length none s = scanRule m s from rfl, heq] at this
  have hcm : countGo m s.length none s = countMatches m s := rfl
  rw [hcm] at this
  nlinarith [Nat.one_le_iff_ne_zero.mpr (Nat.pos_iff_ne_zero.mp hc)]

theorem scanRule_ne_of_grow {m : Matcher} {d : Nat} (hd : 0 < d)
    (hm : ∀ (p : Option Char) (c : Char) (cs : List Char) (st : MStep),
      m p (c :: cs) = some st → st.extra + 1 + d = st.rep.length ∧ st.extra ≤ cs.length)
    {s : List Char} (hc : 0 < countMatches m s) : scanRule m s ≠ s := by
  intro heq
  have := scanGo_len_grow hm s.length none s
  rw [show scanGo m s.length none s = scanRule m s from rfl, heq] at this
  have hcm : countGo m s.length none s = countMatches m s := rfl
  rw [hcm] at this
  nlinarith [Nat.one_le_iff_ne_zero.mpr (Nat.pos_iff_ne_zero.mp hc)]

theorem scanGo_ne_of_firstdiff {m : Matcher}
    (hm : ∀ (p : Option Char) (c : Char) (cs : List Char) (st : MStep),
      m p (c :: cs) = some st →
        ∃ x r', st.rep = x :: r' ∧
          (x ≠ c ∨ ∃ y r'', r' = y :: r'' ∧ cs.head? ≠ some y)) :
    ∀ (fuel : Nat) (p : Option Char) (s : List Char),
      0 < countGo m fuel p s → scanGo m fuel p s ≠ s := by
  intro fuel
  induction fuel with
  | zero => intro p s h; rw [countGo_zero] at h; omega
  | succ fuel ih =>
    intro p s h
    cases s with
    | nil => rw [countGo_nil] at h; omega
    | cons c cs =>
      cases hmm : m p (c :: cs) with
      | none =>
        rw [countGo_cons_none fuel hmm] at h
        rw [scanGo_cons_none fuel hmm]
        intro heq
        rw [List.cons.injEq] at heq
        exact ih (some c) cs h heq.2
      | some st =>
        rw [scanGo_cons_some fuel hmm]
        obtain ⟨x, r', hrep, hx⟩ := hm p c cs st hmm
        rw [hrep]
        intro heq
        rw [List.cons_append, List.cons.injEq] at heq
        rcases hx with hx | ⟨y, r'', hr', hy⟩
        · exact hx heq.1
        · subst hr'
          rw [List.cons_append] at heq
          apply hy
          rw [← heq.2]
          rfl

theorem scanRule_ne_of_firstdiff {m : Matcher}
    (hm : ∀ (p : Option Char) (c : Char) (cs : List Char) (st : MStep),
      m p (c :: cs) = some st →
        ∃ x r', st.rep = x :: r' ∧
          (x ≠ c ∨ ∃ y r'', r' = y :: r'' ∧ cs.head? ≠ some y))
    {s : List Char} (hc : 0 < countMatches m s) : scanRule m s ≠ s :=
  scanGo_ne_of_firstdiff hm s.length none s hc

end SQLMySQL

namespace SQLMySQL

theorem matchLit_spec {lit rep : List Char} {p : Option Char} {s : List Char} {st : MStep}
    (h : matchLit lit rep p s = some st) :
    st.rep = rep ∧ st.extra = lit.length - 1 ∧ leadsWith lit s = true := by
  unfold matchLit at h
  by_cases hlw : leadsWith lit s = true
  · rw [if_pos hlw] at h
    cases hgl : lit.getLast? with
    | none => rw [hgl] at h; exact absurd h (by simp)
    | some l =>
      rw [hgl] at h
      have he := Option.some.inj h
      exact ⟨by rw [← he], by rw [← he], hlw⟩
  · rw [if_neg hlw] at h; exact absurd h (by simp)

theorem matchLen_spec {p : Option Char} {s : List Char} {st : MStep}
    (h : matchLen p s = some st) :
    st.rep = "LENGTH(".toList ∧ st.extra = 3 ∧ leadsWith "LEN(".toList s = true := by
  unfold matchLen at h
  by_cases hc : (boundary p && leadsWith "LEN(".toList s) = true
  · rw [if_pos hc] at h
    have he := Option.some.inj h
    have hc2 := hc
    simp only [Bool.and_eq_true] at hc2
    exact ⟨by rw [← he], by rw [← he], hc2.2⟩
  · rw [if_neg hc] at h; exact absurd h (by simp)

theorem matchIsnull_spec {p : Option Char} {s : List Char} {st : MStep}
    (h : matchIsnull p s = some st) :
    st.rep = "IFNULL(".toList ∧ st.extra = 6 ∧ leadsWith "ISNULL(".toList s = true := by
  unfold matchIsnull at h
  by_cases hc : (boundary p && leadsWith "ISNULL(".toList s) = true
  · rw [if_pos hc] at h
    have he := Option.some.inj h
    have hc2 := hc
    simp only [Bool.and_eq_true] at hc2
    exact ⟨by rw [← he], by rw [← he], hc2.2⟩
  · rw [if_neg hc] at h; exact absurd h (by simp)

theorem matchGetdate_shrink (p : Option Char) (c : Char) (cs : List Char) (st : MStep)
    (h : matchLit "GETDATE()".toList "NOW()".toList p (c :: cs) = some st) :
    st.rep.length + 4 = st.extra + 1 ∧ st.extra ≤ cs.length := by
  obtain ⟨hrep, hextra, hlw⟩ := matchLit_spec h
  have hlen := leadsWith_length hlw
  have h9 : ("GETDATE()".toList).length = 9 := rfl
  have h5 : ("NOW()".toList).length = 5 := rfl
  rw [List.length_cons] at hlen
  constructor
  · rw [hrep, hextra, h5, h9]
  · rw [hextra, h9]; omega

theorem matchGetutcdate_grow (p : Option Char) (c : Char) (cs : List Char) (st : MStep)
    (h : matchLit "GETUTCDATE()".toList "UTC_TIMESTAMP()".toList p (c :: cs) = some st) :
    st.extra + 1 + 3 = st.rep.length ∧ st.extra ≤ cs.length := by
  obtain ⟨hrep, hextra, hlw⟩ := matchLit_spec h
  have hlen := leadsWith_length hlw
  have h12 : ("GETUTCDATE()".toList).length = 12 := rfl
  have h15 : ("UTC_TIMESTAMP()".toList).length = 15 := rfl
  rw [List.length_cons] at hlen
  constructor
  · rw [hrep, hextra, h15, h12]
  · rw [hextra, h12]; omega

theorem matchNewid_shrink (p : Option Char) (c : Char) (cs : List Char) (st : MStep)
    (h : matchLit "NEWID()".toList "UUID()".toList p (c :: cs) = some st) :
    st.rep.length + 1 = st.extra + 1 ∧ st.extra ≤ cs.length := by
  obtain ⟨hrep, hextra, hlw⟩ := matchLit_spec h
  have hlen := leadsWith_length hlw
  have h7 : ("NEWID()".toList).length = 7 := rfl
  have h6 : ("UUID()".toList).length = 6 := rfl
  rw [List.length_cons] at hlen
  constructor
  · rw [hrep, hextra, h6, h7]
  · rw [hextra, h7]; omega

theorem matchLen_grow (p : Option Char) (c : Char) (cs : List Char) (st : MStep)
    (h : matchLen p (c :: cs) = some st) :
    st.extra + 1 + 3 = st.rep.length ∧ st.extra ≤ cs.length := by
  obtain ⟨hrep, hextra, hlw⟩ := matchLen_spec h
  have hlen := leadsWith_length hlw
  have h4 : ("LEN(".toList).length = 4 := rfl
  have h7 : ("LENGTH(".toList).length = 7 := rfl
  rw [List.length_cons] at hlen
  constructor
  · rw [hrep, hextra, h7]
  · rw [hextra]; rw [h4] at hlen; omega

theorem matchIsnull_firstdiff (p : Option Char) (c : Char) (cs : List Char) (st : MStep)
    (h : matchIsnull p (c :: cs) = some st) :
    ∃ x r', st.rep = x :: r' ∧
      (x ≠ c ∨ ∃ y r'', r' = y :: r'' ∧ cs.head? ≠ some y) := by
  obtain ⟨hrep, _, hlw⟩ := matchIsnull_spec h
  refine ⟨'I', 'F' :: "NULL(".toList, by rw [hrep]; rfl,
    Or.inr ⟨'F', "NULL(".toList, rfl, ?_⟩⟩
  have hd := leadsWith_drop hlw
  have h2 : c :: cs = 'I' :: 'S' :: ("NULL(".toList ++ (c :: cs).drop 7) := by
    rw [hd]
    rfl
  rw [List.cons.injEq] at h2
  rw [h2.2]
  simp

theorem matchTop_firstdiff (p : Option Char) (c : Char) (cs : List Char) (st : MStep)
    (h : matchTop p (c :: cs) = some st) :
    ∃ x r', st.rep = x :: r' ∧
      (x ≠ c ∨ ∃ y r'', r' = y :: r'' ∧ cs.head? ≠ some y) := by
  cases cs with
  | nil => exact absurd h (by simp [matchTop])
  | cons b cs2 =>
    cases cs2 with
    | nil => exact absurd h (by simp [matchTop])
    | cons c2 t =>
      simp only [matchTop] at h
      split_ifs at h with h1 h2 h3 h4
      have he := Option.some.inj h
      refine ⟨'L', "IMIT ".toList ++ (t.dropWhile spaceChar).takeWhile Char.isDigit,
        by rw [← he]; exact rfl, Or.inl ?_⟩
      simp only [Bool.and_eq_true, Bool.or_eq_true, decide_eq_true_eq] at h1
      rcases h1.2 with hct | hct <;> (subst hct; decide)

end SQLMySQL

namespace SQLMySQL

theorem matchDbo_shrink (p : Option Char) (c : Char) (cs : List Char) (st : MStep)
    (h : matchDbo p (c :: cs) = some st) :
    st.rep.length + 8 = st.extra + 1 ∧ st.extra ≤ cs.length := by
  simp only [matchDbo] at h
  split at h
  case isTrue hlw =>
    split at h
    case h_1 d tail heq =>
      split_ifs at h with hw
      have he := Option.some.inj h
      constructor
      · rw [← he]
        simp
        omega
      · rw [← he]
        have hstruct := leadsWith_drop hlw
        rw [show ("[dbo].[".toList).length = 7 from rfl] at hstruct
        have hlen1 : (c :: cs).length = 7 + ((c :: cs).drop 7).length := by
          conv_lhs => rw [hstruct]
          rw [List.length_append]
          rw [show ("[dbo].[".toList).length = 7 from rfl]
        have hsplit : ((c :: cs).drop 7).takeWhile wordChar ++ (']' :: tail) =
            (c :: cs).drop 7 := by
          rw [← heq, List.takeWhile_append_dropWhile]
        have hlen2 : ((c :: cs).drop 7).length =
            (((c :: cs).drop 7).takeWhile wordChar).length + (1 + tail.length) := by
          conv_lhs => rw [← hsplit]
          rw [List.length_append, List.length_cons]
          omega
        simp only [List.length_cons] at hlen1
        simp only [MStep.extra]
        omega
    case h_2 => exact absurd h (by simp)
  case isFalse => exact absurd h (by simp)

theorem matchBr_shrink (p : Option Char) (c : Char) (cs : List Char) (st : MStep)
    (h : matchBr p (c :: cs) = some st) :
    st.rep.length + 2 = st.extra + 1 ∧ st.extra ≤ cs.length := by
  simp only [matchBr] at h
  split at h
  case isTrue hc =>
    split at h
    case h_1 d tail heq =>
      split_ifs at h with hw
      have he := Option.some.inj h
      constructor
      · rw [← he]
        simp
        omega
      · rw [← he]
        have hsplit : cs.takeWhile (fun d => d ≠ ']') ++ (']' :: tail) = cs := by
          rw [← heq, List.takeWhile_append_dropWhile]
        have hlen2 : cs.length = (cs.takeWhile (fun d => d ≠ ']')).length + (1 + tail.length) := by
          conv_lhs => rw [← hsplit]
          rw [List.length_append, List.length_cons]
          omega
        simp only [MStep.extra]
        omega
    case h_2 => exact absurd h (by simp)
  case isFalse => exact absurd h (by simp)

end SQLMySQL

namespace SQLMySQL

/-- every conversion rule changes any text in which its pattern matches. -/
theorem conversions_change :
    ∀ r ∈ conversions, ∀ x : List Char,
      0 < countMatches r.matcher x → scanRule r.matcher x ≠ x := by
  intro r hr x hc
  revert hc
  simp only [conversions, List.mem_cons, List.not_mem_nil, or_false] at hr
  rcases hr with h | h | h | h | h | h | h | h <;> subst h <;> intro hc
  · exact scanRule_ne_of_shrink (by omega) matchDbo_shrink hc
  · exact scanRule_ne_of_shrink (by omega) matchBr_shrink hc
  · exact scanRule_ne_of_shrink (by omega) matchGetdate_shrink hc
  · exact scanRule_ne_of_grow (by omega) matchGetutcdate_grow hc
  · exact scanRule_ne_of_shrink (by omega) matchNewid_shrink hc
  · exact scanRule_ne_of_grow (by omega) matchLen_grow hc
  · exact scanRule_ne_of_firstdiff matchIsnull_firstdiff hc
  · exact scanRule_ne_of_firstdiff matchTop_firstdiff hc

/-- one step of the per-line rule fold, carrying the changed flag. -/
def flagStep (p : List Char × Bool) (r : Rule) : List Char × Bool :=
  (scanRule r.matcher p.1, p.2 || decide (¬ scanRule r.matcher p.1 = p.1))

theorem convertLineFlag_eq (l : List Char) :
    convertLineFlag l = conversions.foldl flagStep (l, false) := rfl

/-- one step of the per-line rule fold, accumulating staged match counts. -/
def stagedStep (p : List Char × Nat) (r : Rule) : List Char × Nat :=
  (scanRule r.matcher p.1, p.2 + countMatches r.matcher p.1)

theorem stagedCount_eq (l : List Char) :
    stagedCount l = (conversions.foldl stagedStep (l, 0)).2 := rfl

theorem flag_fold_monotone (rs : List Rule) :
    ∀ s : List Char, (rs.foldl flagStep (s, true)).2 = true := by
  induction rs with
  | nil => intro s; rfl
  | cons r rs ih =>
    intro s
    rw [List.foldl_cons]
    have hfs : flagStep (s, true) r = (scanRule r.matcher s, true) := by
      simp [flagStep]
    rw [hfs]
    exact ih _

theorem staged_fold_acc (rs : List Rule) :
    ∀ (s : List Char) (k : Nat),
      (rs.foldl stagedStep (s, k)).2 = k + (rs.foldl stagedStep (s, 0)).2 := by
  induction rs with
  | nil => intro s k; simp
  | cons r rs ih =>
    intro s k
    rw [List.foldl_cons, List.foldl_cons]
    show (rs.foldl stagedStep (scanRule r.matcher s, k + countMatches r.matcher s)).2 =
      k + (rs.foldl stagedStep (scanRule r.matcher s, 0 + countMatches r.matcher s)).2
    rw [ih (scanRule r.matcher s) (k + countMatches r.matcher s),
      ih (scanRule r.matcher s) (0 + countMatches r.matcher s)]
    omega

/-- the per-line changed flag is set exactly when some rule's pattern matched
the text that rule saw. -/
theorem flag_iff_staged (rs : List Rule)
    (hrs : ∀ r ∈ rs, ∀ x : List Char,
      0 < countMatches r.matcher x → scanRule r.matcher x ≠ x) :
    ∀ s : List Char,
      ((rs.foldl flagStep (s, false)).2 = true ↔ 0 < (rs.foldl stagedStep (s, 0)).2) := by
  induction rs with
  | nil => intro s; simp [List.foldl_nil]
  | cons r rs ih =>
    intro s
    rw [List.foldl_cons, List.foldl_cons]
    rcases Nat.eq_zero_or_pos (countMatches r.matcher s) with hz | hp
    · have hid : scanRule r.matcher s = s := scanRule_id_of_count hz
      have h1 : flagStep (s, false) r = (s, false) := by
        simp [flagStep, hid]
      have h2 : stagedStep (s, 0) r = (s, 0) := by
        simp [stagedStep, hid, hz]
      rw [h1, h2]
      exact ih (fun r' hr' => hrs r' (by simp [hr'])) s
    · have hne : scanRule r.matcher s ≠ s := hrs r (by simp) s hp
      have h1 : flagStep (s, false) r = (scanRule r.matcher s, true) := by
        simp [flagStep, hne]
      have h2 : stagedStep (s, 0) r = (scanRule r.matcher s, countMatches r.matcher s) := by
        simp [stagedStep]
      rw [h1, h2]
      have hL : (rs.foldl flagStep (scanRule r.matcher s, true)).2 = true :=
        flag_fold_monotone rs _
      have hR : 0 < (rs.foldl stagedStep (scanRule r.matcher s,
          countMatches r.matcher s)).2 := by
        rw [staged_fold_acc]
        omega
      simp [hL, hR]

theorem flag_eq_staged (l : List Char) :
    (convertLineFlag l).2 = decide (0 < stagedCount l) := by
  rw [convertLineFlag_eq, stagedCount_eq]
  have hiff := flag_iff_staged conversions conversions_change l
  cases hf : (conversions.foldl flagStep (l, false)).2 with
  | false =>
    have hnot : ¬ 0 < (conversions.foldl stagedStep (l, 0)).2 := by
      intro hpos
      have hcontra := hiff.mpr hpos
      rw [hf] at hcontra
      exact absurd hcontra (by simp)
    simp [hnot]
  | true =>
    have hpos := hiff.mp hf
    simp [hpos]

theorem streamCounts (ls : List (List Char)) :
    ∀ (a b : Nat) (o : List Char),
      ((ls.foldl streamFold (a, b, o)).1 = a + ls.length) ∧
      ((ls.foldl streamFold (a, b, o)).2.1 =
        b + (ls.filter (fun l => (convertLineFlag l).2)).length) := by
  induction ls with
  | nil => intro a b o; simp
  | cons l ls ih =>
    intro a b o
    rw [List.foldl_cons]
    have hsf : streamFold (a, b, o) l =
        (a + 1, b + (if (convertLineFlag l).2 then 1 else 0),
          o ++ (convertLineFlag l).1 ++ ['\n']) := rfl
    rw [hsf]
    obtain ⟨h1, h2⟩ := ih (a + 1) (b + (if (convertLineFlag l).2 then 1 else 0))
      (o ++ (convertLineFlag l).1 ++ ['\n'])
    constructor
    · rw [h1]
      simp [List.length_cons]
      omega
    · rw [h2, List.filter_cons]
      cases hfl : (convertLineFlag l).2
      · simp [hfl]
      · simp [hfl]
        omega

/-- C8: on reaching end of input the streaming pipeline resolves with
`success = true`, `linesProcessed` equal to the number of input lines, and
`linesChanged` equal to the number of lines on which at least one rule's
pattern matched (counting each rule's matches on the text it actually saw). -/
theorem c8_stream_summary (ts s : List Char) :
    ((convertLargeFileStreaming ts s).2).success = true ∧
      ((convertLargeFileStreaming ts s).2).linesProcessed = (splitLines s).length ∧
      ((convertLargeFileStreaming ts s).2).linesChanged =
        ((splitLines s).filter (fun l => 0 < stagedCount l)).length := by
  obtain ⟨h1, h2⟩ := streamCounts (splitLines s) 0 0 []
  refine ⟨rfl, ?_, ?_⟩
  · show ((splitLines s).foldl streamFold (0, 0, [])).1 = _
    rw [h1]
    omega
  · show ((splitLines s).foldl streamFold (0, 0, [])).2.1 = _
    rw [h2]
    have hfc : (splitLines s).filter (fun l => (convertLineFlag l).2) =
        (splitLines s).filter (fun l => decide (0 < stagedCount l)) :=
      List.filter_congr (fun l _ => flag_eq_staged l)
    rw [hfc]
    omega

end SQLMySQL
